import Mathlib

/-!
Verification of the expense-dashboard repository's core logic.

The repository's classification core (`utils/category_mapper.py`, the
`apply_category_mapping` function called from `src/app.py` line 93) is not
part of the available sources; following the specification, the
CategoryRuleSet / Classifier / DatasetAnnotator components are modelled
from the spec's words.  The aggregation pipeline (`monthly_summary`,
`pivot_table`) is embedded directly from `src/app.py`.
-/

namespace ExpenseDashboard

/-! ### Strings and substring containment

Keyword matching is plain substring containment (Python's `in` operator on
strings), modelled over the character lists underlying Lean strings. -/

/-- listStarts n h decides whether the character list n is a prefix of h. -/
def listStarts : List Char → List Char → Bool
  | [], _ => true
  | _ :: _, [] => false
  | a :: as, b :: bs => a = b && listStarts as bs

/-- listHasSub n h decides whether n occurs as a contiguous sublist of h. -/
def listHasSub : List Char → List Char → Bool
  | n, [] => listStarts n []
  | n, c :: t => listStarts n (c :: t) || listHasSub n t

/-- isSubstr n h decides whether the string n occurs as a substring of h,
the semantics of Python's `n in h` for strings. -/
def isSubstr (n h : String) : Bool :=
  listHasSub n.data h.data

/-! ### The classification core, modelled from the spec -/

/-- Modelled from the spec: a Rule of the CategoryRuleSet of
`utils/category_mapper.py` (absent from the sources) is
`\x7bcategory: string, keywords: ordered sequence of string\x7d`. -/
structure Rule where
  category : String
  keywords : List String
deriving DecidableEq, Repr

/-- Modelled from the spec: a CategoryRuleSet is an ordered sequence of
Rule; order defines priority, first matching rule wins. -/
def CategoryRuleSet := List Rule

/-- Modelled from the spec: a rule matches a description exactly when ANY
of its keywords occurs as a substring of the description.  The spec leaves
the exact normalization of the description open (§9); it is modelled as
the identity here. -/
def ruleMatches (d : String) (r : Rule) : Bool :=
  r.keywords.any (fun k => isSubstr k d)

/-- Modelled from the spec: `classify(description, rules)` of the absent
`utils/category_mapper.py` iterates rules in priority order, returns the
category of the first rule with a matching keyword, and falls back to
"기타" when no rule matches. -/
def classify (d : String) (rules : List Rule) : String :=
  match rules with
  | [] => "기타"
  | r :: rest => if ruleMatches d r then r.category else classify d rest

/-- Modelled from the spec: any invalid (non-string or missing) description
is coerced to the empty string before matching; absence is modelled by
`Option.none`. -/
def classifyOpt (d : Option String) (rules : List Rule) : String :=
  classify (d.getD "") rules

/-- A transaction row as produced by the external loader: the classifier
only reads `description`, which may be missing in a malformed row. -/
structure TransactionRow where
  date : String
  description : Option String
  amount : Int
deriving DecidableEq, Repr

/-- An annotated row: a transaction row plus its assigned category. -/
structure AnnotatedRow extends TransactionRow where
  category : String
deriving DecidableEq, Repr

/-- Modelled from the spec: `annotate(rows, rules)` (the DatasetAnnotator,
realized by `apply_category_mapping` in the absent
`utils/category_mapper.py`) applies the classifier to every row of the
dataset, producing a new category column. -/
def annotate (rows : List TransactionRow) (rules : List Rule) : List AnnotatedRow :=
  rows.map (fun r => { toTransactionRow := r, category := classifyOpt r.description rules })

/-- The demonstration rule set of the spec's concrete scenario. -/
def demoRules : List Rule :=
  [⟨"식비", ["식사", "점심", "간식"]⟩,
   ⟨"교통", ["교통", "지하철", "택시"]⟩,
   ⟨"교육", ["강의", "수강료"]⟩]

/-! ### The aggregation pipeline of src/app.py

After annotation, `src/app.py` derives `year_month` from the date
(line 96) and aggregates `amount` by month (lines 109-114) and by
month × category (lines 169-178).  A row of the dataframe at that point
is modelled by its three fields consumed there. -/

/-- A row of the annotated dataframe as consumed by the aggregations of
src/app.py: the derived year_month column, the category column added on
line 93, and the numeric amount. -/
structure DRow where
  year_month : String
  category : String
  amount : Int
deriving DecidableEq, Repr

/-- Reference total: the sum of the amounts of the rows of a given month. -/
def monthTotal (df : List DRow) (k : String) : Int :=
  ((df.filter (fun r => r.year_month == k)).map (fun r => r.amount)).sum

/-- Reference total: the sum of the amounts of the rows of a given
month and category combination. -/
def cellTotal (df : List DRow) (m c : String) : Int :=
  ((df.filter (fun r => r.year_month == m && r.category == c)).map (fun r => r.amount)).sum

/-- Lexicographic strict order on character lists, the order in which
pandas sorts string keys. -/
def listLt : List Char → List Char → Bool
  | [], [] => false
  | [], _ :: _ => true
  | _ :: _, [] => false
  | a :: as, b :: bs =>
    if a < b then true
    else if b < a then false
    else listLt as bs

/-- Lexicographic strict order on strings, executable form of String's
standard order. -/
def strLt (a b : String) : Bool :=
  listLt a.data b.data

/-- Value associated to a key in an aggregation association list, 0 when
the key is absent. -/
def lookupVal {κ : Type} [DecidableEq κ] (acc : List (κ × Int)) (k : κ) : Int :=
  match acc.find? (fun p => decide (p.1 = k)) with
  | some p => p.2
  | none => 0

/-- One step of the sorted groupby sum of src/app.py lines 110-111: add
amount v under month key k, merging into the existing entry when the key
is present and inserting at its sorted position otherwise. -/
def msInsert : List (String × Int) → String → Int → List (String × Int)
  | [], k, v => [(k, v)]
  | p :: rest, k, v =>
    if k = p.1 then (p.1, p.2 + v) :: rest
    else if strLt k p.1 then (k, v) :: p :: rest
    else p :: msInsert rest k v

/-- Embeds monthly_summary of src/app.py lines 109-114:
df.groupby("year_month")["amount"].sum() followed by reset_index and
sort_values("year_month") — one (year_month, total) pair per distinct
month, in ascending month order. -/
def monthly_summary (df : List DRow) : List (String × Int) :=
  df.foldl (fun acc r => msInsert acc r.year_month r.amount) []

/-- Sorted deduplicating insertion of a string into a string list. -/
def strInsert : List String → String → List String
  | [], s => [s]
  | s' :: rest, s =>
    if s = s' then s' :: rest
    else if strLt s s' then s :: s' :: rest
    else s' :: strInsert rest s

/-- The row index of the pivot table of src/app.py lines 169-178: the
distinct year_month values in ascending order (sort_index, line 177). -/
def pivotMonths (df : List DRow) : List String :=
  df.foldl (fun acc r => strInsert acc r.year_month) []

/-- The column index of the pivot table: the distinct category values,
in ascending order. -/
def pivotCats (df : List DRow) : List String :=
  df.foldl (fun acc r => strInsert acc r.category) []

/-- One step of the groupby behind the pivot aggregation, keyed by the
(year_month, category) pair. -/
def pvInsert : List ((String × String) × Int) → String × String → Int → List ((String × String) × Int)
  | [], k, v => [(k, v)]
  | p :: rest, k, v =>
    if k = p.1 then (p.1, p.2 + v) :: rest
    else p :: pvInsert rest k v

/-- The aggregated (year_month, category) groups of the pivot
(aggfunc="sum" on the amount column, src/app.py line 174). -/
def pivotGroups (df : List DRow) : List ((String × String) × Int) :=
  df.foldl (fun acc r => pvInsert acc (r.year_month, r.category) r.amount) []

/-- A cell of the pivot table: the aggregated sum of its group when the
(year_month, category) combination occurs in the data, and the
fill_value 0 (src/app.py line 175) when it does not. -/
def pivotCell (df : List DRow) (m c : String) : Int :=
  lookupVal (pivotGroups df) (m, c)

/-- Embeds pivot_table of src/app.py lines 169-178: the table as rows
indexed by year_month, each row carrying one cell per category column. -/
def pivot_table (df : List DRow) : List (String × List (String × Int)) :=
  (pivotMonths df).map (fun m => (m, (pivotCats df).map (fun c => (c, pivotCell df m c))))

/-! ### Classifier theorems -/

/-- A keyword that is not the empty string is never a substring of the
empty description. -/
theorem isSubstr_empty (k : String) (h : k ≠ "") : isSubstr k "" = false := by
  cases hk : k.data with
  | nil =>
    exfalso; apply h
    cases k
    simp_all [String.ext_iff]
  | cons a as => simp [isSubstr, listHasSub, hk, listStarts]

/-- C2: classify always returns either some rule's category or the
fallback label "기타", never an empty or undefined value. -/
theorem classify_total (d : String) (rules : List Rule) :
    classify d rules = "기타" ∨ classify d rules ∈ rules.map (fun r => r.category) := by
  induction rules with
  | nil => exact Or.inl rfl
  | cons r rest ih =>
    by_cases h : ruleMatches d r = true
    · right; simp [classify, h]
    · rcases ih with h' | h'
      · left; simpa [classify, h] using h'
      · right
        simp only [classify, if_neg h, List.map_cons, List.mem_cons]
        exact Or.inr h'

/-- C1: when no earlier rule matches the description and rule r matches,
classify returns r's category — the first matching rule in declared order
wins, even if a rule after r also matches. -/
theorem classify_first_match (d : String) (pre post : List Rule) (r : Rule)
    (hpre : ∀ r' ∈ pre, ruleMatches d r' = false) (hr : ruleMatches d r = true) :
    classify d (pre ++ r :: post) = r.category := by
  induction pre with
  | nil => simp [classify, hr]
  | cons p ps ih =>
    have hp : ruleMatches d p = false := hpre p (List.mem_cons_self p ps)
    have : classify d ((p :: ps) ++ r :: post) = classify d (ps ++ r :: post) := by
      simp [classify, hp]
    rw [this]
    exact ih (fun r' h' => hpre r' (List.mem_cons_of_mem p h'))

/-- Witness for classify_first_match: "점심 지하철" matches both the 식비
rule (via "점심") and the later 교통 rule (via "지하철"); with 식비 listed
before 교통 the classification resolves to "식비". -/
theorem classify_first_match_witness :
    ruleMatches "점심 지하철" ⟨"교통", ["교통", "지하철", "택시"]⟩ = true ∧
    classify "점심 지하철"
      ([⟨"교육", ["강의", "수강료"]⟩] ++
        ⟨"식비", ["식사", "점심", "간식"]⟩ :: [⟨"교통", ["교통", "지하철", "택시"]⟩]) = "식비" :=
  ⟨by decide, classify_first_match _ _ _ _ (by decide) (by decide)⟩

/-- C5: under the spec's Rule invariant that keywords are non-empty
strings, classifying the empty (or missing) description returns the
fallback "기타" and never an error. -/
theorem classify_empty (rules : List Rule)
    (hne : ∀ r ∈ rules, ∀ k ∈ r.keywords, k ≠ "") :
    classify "" rules = "기타" ∧ classifyOpt none rules = "기타" := by
  have main : classify "" rules = "기타" := by
    induction rules with
    | nil => rfl
    | cons r rest ih =>
      have hm : ruleMatches "" r = false := by
        simp only [ruleMatches, List.any_eq_false]
        intro k hk
        simp [isSubstr_empty k (hne r (List.mem_cons_self r rest) k hk)]
      have := ih (fun r' h' k hk => hne r' (List.mem_cons_of_mem r h') k hk)
      simpa [classify, hm] using this
  exact ⟨main, main⟩

/-- Witness for classify_empty at the demonstration rule set. -/
theorem classify_empty_witness :
    classify "" demoRules = "기타" ∧ classifyOpt none demoRules = "기타" :=
  classify_empty demoRules (by decide)

/-- C6: keyword matching is plain substring containment — a rule matches
exactly when one of its keywords occurs as a substring of the
description; concretely, the keyword "간식" matches inside the larger
word "간식비". -/
theorem ruleMatches_substring :
    (∀ (d : String) (r : Rule), ruleMatches d r = true ↔ ∃ k ∈ r.keywords, isSubstr k d = true) ∧
    classify "간식비" demoRules = "식비" := by
  constructor
  · intro d r
    simp [ruleMatches]
  · decide

/-- C3: annotate preserves the row count and order; the row at every
index is the corresponding input row (same date, description and amount)
plus the category computed by the classifier on its description. -/
theorem annotate_frame (rows : List TransactionRow) (rules : List Rule)
    (i : Nat) (r : TransactionRow) (h : rows[i]? = some r) :
    (annotate rows rules).length = rows.length ∧
    (annotate rows rules)[i]? =
      some { toTransactionRow := r, category := classifyOpt r.description rules } := by
  refine ⟨by simp [annotate], ?_⟩
  simp [annotate, h]

/-- Witness for annotate_frame at a concrete one-row dataset. -/
theorem annotate_frame_witness :
    (annotate [⟨"2025-09-01", some "점심 식사", 12000⟩] demoRules).length =
      [(⟨"2025-09-01", some "점심 식사", 12000⟩ : TransactionRow)].length ∧
    (annotate [⟨"2025-09-01", some "점심 식사", 12000⟩] demoRules)[0]? =
      some ⟨⟨"2025-09-01", some "점심 식사", 12000⟩, classifyOpt (some "점심 식사") demoRules⟩ :=
  annotate_frame _ demoRules 0 _ rfl

/-- C4: the core never fails — a missing description is coerced to the
empty string before matching, and a row with a missing description is
annotated in place through the empty-description path rather than being
rejected or aborting the dataset. -/
theorem annotate_never_fails (rules : List Rule) (rows : List TransactionRow)
    (i : Nat) (r : TransactionRow) (hi : rows[i]? = some r) (hd : r.description = none) :
    classifyOpt none rules = classify "" rules ∧
    (annotate rows rules)[i]? = some { toTransactionRow := r, category := classify "" rules } := by
  refine ⟨rfl, ?_⟩
  simp [annotate, hi, classifyOpt, hd]

/-- Witness for annotate_never_fails at a concrete row with a missing
description. -/
theorem annotate_never_fails_witness :
    classifyOpt none demoRules = classify "" demoRules ∧
    (annotate [⟨"2025-11-10", none, 500000⟩] demoRules)[0]? =
      some ⟨⟨"2025-11-10", none, 500000⟩, classify "" demoRules⟩ :=
  annotate_never_fails demoRules _ 0 _ rfl rfl

/-- C7: annotate is deterministic and side-effect free — two runs on the
same input and rule set are identical, and the transaction part of the
output is exactly the input sequence, unmodified. -/
theorem annotate_deterministic (rows : List TransactionRow) (rules : List Rule) :
    annotate rows rules = annotate rows rules ∧
    (annotate rows rules).map (fun a => a.toTransactionRow) = rows := by
  refine ⟨rfl, ?_⟩
  induction rows with
  | nil => rfl
  | cons r rest ih => simpa [annotate] using ih

/-- C8: the spec's concrete scenario on the demonstration rule set:
"점심 식사" is 식비, "지하철 교통비" is 교통, "온라인 강의 수강료" is
교육, and "월세" falls back to "기타". -/
theorem classify_demo_scenarios :
    classify "점심 식사" demoRules = "식비" ∧
    classify "지하철 교통비" demoRules = "교통" ∧
    classify "온라인 강의 수강료" demoRules = "교육" ∧
    classify "월세" demoRules = "기타" := by
  refine ⟨by decide, by decide, by decide, by decide⟩

theorem listLt_iff (as bs : List Char) : listLt as bs = true ↔ as < bs := by
  induction as generalizing bs with
  | nil =>
    cases bs with
    | nil =>
      constructor
      · intro h; simp [listLt] at h
      · intro h; exact (nomatch h)
    | cons b bs =>
      constructor
      · intro _; exact List.Lex.nil
      · intro _; rfl
  | cons a as ih =>
    cases bs with
    | nil =>
      constructor
      · intro h; simp [listLt] at h
      · intro h; exact (nomatch h)
    | cons b bs =>
      simp only [listLt]
      by_cases h1 : a < b
      · rw [if_pos h1]
        constructor
        · intro _; exact List.Lex.rel h1
        · intro _; rfl
      · rw [if_neg h1]
        by_cases h2 : b < a
        · rw [if_pos h2]
          constructor
          · intro h; simp at h
          · intro h
            cases h with
            | cons h' => exact absurd h2 (lt_irrefl _)
            | rel h' => exact absurd h' h1
        · have heq : a = b := le_antisymm (not_lt.mp h2) (not_lt.mp h1)
          subst heq
          rw [if_neg h2, ih bs]
          constructor
          · intro h; exact List.Lex.cons h
          · intro h
            cases h with
            | cons h' => exact h'
            | rel h' => exact absurd h' h1

theorem strLt_iff (a b : String) : strLt a b = true ↔ a < b := by
  rw [String.lt_iff_toList_lt]
  exact listLt_iff a.data b.data

theorem lookupVal_nil {κ : Type} [DecidableEq κ] (k : κ) : lookupVal ([] : List (κ × Int)) k = 0 := rfl

theorem lookupVal_cons {κ : Type} [DecidableEq κ] (q : κ × Int) (l : List (κ × Int)) (k : κ) :
    lookupVal (q :: l) k = if q.1 = k then q.2 else lookupVal l k := by
  by_cases h : q.1 = k <;> simp [lookupVal, List.find?_cons, h]

theorem lookupVal_not_mem {κ : Type} [DecidableEq κ] (l : List (κ × Int)) (k : κ)
    (h : ∀ p ∈ l, p.1 ≠ k) : lookupVal l k = 0 := by
  induction l with
  | nil => rfl
  | cons q rest ih =>
    rw [lookupVal_cons, if_neg (h q (List.mem_cons_self q rest))]
    exact ih (fun p hp => h p (List.mem_cons_of_mem q hp))

theorem lookupVal_mem (acc : List (String × Int)) (h : acc.Pairwise (fun a b => a.1 < b.1))
    (p : String × Int) (hp : p ∈ acc) : lookupVal acc p.1 = p.2 := by
  induction acc with
  | nil => cases hp
  | cons q rest ih =>
    rw [List.pairwise_cons] at h
    rcases List.mem_cons.mp hp with rfl | hp'
    · rw [lookupVal_cons, if_pos rfl]
    · rw [lookupVal_cons, if_neg (ne_of_lt (h.1 p hp'))]
      exact ih h.2 hp'

theorem msInsert_keys (acc : List (String × Int)) (k : String) (v : Int) (t : String) :
    t ∈ (msInsert acc k v).map Prod.fst ↔ t = k ∨ t ∈ acc.map Prod.fst := by
  induction acc with
  | nil => simp [msInsert]
  | cons p rest ih =>
    simp only [msInsert]
    by_cases h1 : k = p.1
    · rw [if_pos h1]
      simp only [List.map_cons, List.mem_cons]
      constructor
      · rintro (h | h)
        · exact Or.inr (Or.inl h)
        · exact Or.inr (Or.inr h)
      · rintro (h | h | h)
        · exact Or.inl (h.trans h1)
        · exact Or.inl h
        · exact Or.inr h
    · rw [if_neg h1]
      by_cases h2 : strLt k p.1 = true
      · rw [if_pos h2]
        simp only [List.map_cons, List.mem_cons]
      · rw [if_neg h2]
        simp only [List.map_cons, List.mem_cons, ih]
        tauto

theorem msInsert_sorted (acc : List (String × Int)) (k : String) (v : Int)
    (h : acc.Pairwise (fun a b => a.1 < b.1)) :
    (msInsert acc k v).Pairwise (fun a b => a.1 < b.1) := by
  induction acc with
  | nil => simp [msInsert]
  | cons p rest ih =>
    rw [List.pairwise_cons] at h
    obtain ⟨hp, hrest⟩ := h
    simp only [msInsert]
    by_cases h1 : k = p.1
    · rw [if_pos h1]
      exact List.pairwise_cons.mpr ⟨hp, hrest⟩
    · rw [if_neg h1]
      by_cases h2 : strLt k p.1 = true
      · have h2' : k < p.1 := (strLt_iff k p.1).mp h2
        rw [if_pos h2]
        refine List.pairwise_cons.mpr ⟨?_, List.pairwise_cons.mpr ⟨hp, hrest⟩⟩
        intro b hb
        rcases List.mem_cons.mp hb with rfl | hb'
        · exact h2'
        · exact lt_trans h2' (hp b hb')
      · have h3 : p.1 < k := by
          rcases lt_trichotomy k p.1 with hlt | heq | hgt
          · exact absurd ((strLt_iff k p.1).mpr hlt) h2
          · exact absurd heq h1
          · exact hgt
        rw [if_neg h2]
        refine List.pairwise_cons.mpr ⟨?_, ih hrest⟩
        intro b hb
        have hb1 : b.1 ∈ (msInsert rest k v).map Prod.fst := List.mem_map_of_mem Prod.fst hb
        rcases (msInsert_keys rest k v b.1).mp hb1 with he | hm
        · rw [he]; exact h3
        · rcases List.mem_map.mp hm with ⟨b', hb', he'⟩
          rw [← he']
          exact hp b' hb'

theorem msInsert_lookupVal (acc : List (String × Int)) (k : String) (v : Int) (t : String)
    (h : acc.Pairwise (fun a b => a.1 < b.1)) :
    lookupVal (msInsert acc k v) t = lookupVal acc t + (if t = k then v else 0) := by
  induction acc with
  | nil =>
    simp only [msInsert, lookupVal_cons, lookupVal_nil]
    by_cases ht : t = k
    · rw [if_pos ht.symm, if_pos ht, zero_add]
    · rw [if_neg (fun e => ht e.symm), if_neg ht, add_zero]
  | cons p rest ih =>
    rw [List.pairwise_cons] at h
    obtain ⟨hp, hrest⟩ := h
    simp only [msInsert]
    by_cases h1 : k = p.1
    · rw [if_pos h1]
      by_cases ht : t = p.1
      · rw [lookupVal_cons, lookupVal_cons, if_pos ht.symm, if_pos ht.symm,
          if_pos (ht.trans h1.symm)]
      · have htk : ¬t = k := fun e => ht (e.trans h1)
        rw [lookupVal_cons, lookupVal_cons, if_neg (fun e => ht e.symm),
          if_neg (fun e => ht e.symm), if_neg htk, add_zero]
    · rw [if_neg h1]
      by_cases h2 : strLt k p.1 = true
      · have h2' : k < p.1 := (strLt_iff k p.1).mp h2
        rw [if_pos h2]
        by_cases ht : t = k
        · have htp : t < p.1 := by rw [ht]; exact h2'
          have hz : lookupVal (p :: rest) t = 0 := by
            apply lookupVal_not_mem
            intro q hq
            rcases List.mem_cons.mp hq with rfl | hq'
            · exact Ne.symm (ne_of_lt htp)
            · exact Ne.symm (ne_of_lt (lt_trans htp (hp q hq')))
          rw [lookupVal_cons, if_pos ht.symm, if_pos ht, hz, zero_add]
        · rw [lookupVal_cons, if_neg (fun e => ht e.symm), if_neg ht, add_zero]
      · have h3 : p.1 < k := by
          rcases lt_trichotomy k p.1 with hlt | heq | hgt
          · exact absurd ((strLt_iff k p.1).mpr hlt) h2
          · exact absurd heq h1
          · exact hgt
        rw [if_neg h2]
        by_cases ht : t = p.1
        · have htk : ¬t = k := by rw [ht]; exact ne_of_lt h3
          rw [lookupVal_cons, lookupVal_cons, if_pos ht.symm, if_pos ht.symm,
            if_neg htk, add_zero]
        · rw [lookupVal_cons, lookupVal_cons, if_neg (fun e => ht e.symm),
            if_neg (fun e => ht e.symm)]
          exact ih hrest

theorem monthTotal_append_single (df : List DRow) (r : DRow) (t : String) :
    monthTotal (df ++ [r]) t = monthTotal df t + (if t = r.year_month then r.amount else 0) := by
  by_cases h : t = r.year_month
  · rw [if_pos h]
    simp [monthTotal, List.filter_append, List.filter_cons, h]
  · rw [if_neg h, add_zero]
    have hb : (r.year_month == t) = false := by
      cases hx : (r.year_month == t) with
      | false => rfl
      | true => exact absurd (beq_iff_eq.mp hx).symm h
    simp [monthTotal, List.filter_append, List.filter_cons, hb]

theorem monthly_summary_spec (df : List DRow) :
    (monthly_summary df).Pairwise (fun a b => a.1 < b.1) ∧
    (∀ t, t ∈ (monthly_summary df).map Prod.fst ↔ t ∈ df.map (fun r => r.year_month)) ∧
    (∀ t, lookupVal (monthly_summary df) t = monthTotal df t) := by
  induction df using List.reverseRecOn with
  | nil =>
    refine ⟨List.Pairwise.nil, ?_, ?_⟩
    · intro t; simp [monthly_summary]
    · intro t; simp [monthly_summary, lookupVal_nil, monthTotal]
  | append_singleton l r ih =>
    obtain ⟨hs, hk, hv⟩ := ih
    have hstep : monthly_summary (l ++ [r]) = msInsert (monthly_summary l) r.year_month r.amount := by
      simp [monthly_summary, List.foldl_append]
    refine ⟨?_, ?_, ?_⟩
    · rw [hstep]; exact msInsert_sorted _ _ _ hs
    · intro t
      rw [hstep, msInsert_keys, hk t]
      simp [or_comm]
    · intro t
      rw [hstep, msInsert_lookupVal _ _ _ _ hs, hv t, monthTotal_append_single]

/-- C9: the monthly summary has one row per distinct year_month present
in the data (keys pairwise distinct, covering exactly the months
occurring), its rows are sorted in ascending year_month order, and each
row's amount is the sum of the amounts of that month's rows. -/
theorem monthly_summary_correct (df : List DRow) :
    ((monthly_summary df).map Prod.fst).Pairwise (fun a b => a < b) ∧
    ((monthly_summary df).map Prod.fst).Nodup ∧
    (∀ t, t ∈ (monthly_summary df).map Prod.fst ↔ t ∈ df.map (fun r => r.year_month)) ∧
    (∀ p ∈ monthly_summary df, p.2 = monthTotal df p.1) := by
  obtain ⟨hs, hk, hv⟩ := monthly_summary_spec df
  have hmap : ((monthly_summary df).map Prod.fst).Pairwise (fun a b => a < b) :=
    List.pairwise_map.mpr hs
  refine ⟨hmap, hmap.imp ne_of_lt, hk, ?_⟩
  intro p hp
  rw [← hv p.1]
  exact (lookupVal_mem _ hs p hp).symm

/-- A small concrete annotated dataset used by the aggregation witnesses. -/
def demoDf : List DRow :=
  [⟨"2025-09", "식비", 12000⟩, ⟨"2025-09", "교통", 1450⟩, ⟨"2025-10", "식비", 3800⟩]

/-- Witness for monthly_summary_correct on the concrete dataset: the
2025-09 row carries the month's total. -/
theorem monthly_summary_correct_witness :
    (("2025-09", (13450 : Int)) : String × Int).2 =
      monthTotal demoDf (("2025-09", (13450 : Int)) : String × Int).1 :=
  (monthly_summary_correct demoDf).2.2.2 ("2025-09", 13450) (by
    have he : monthly_summary demoDf = [("2025-09", 13450), ("2025-10", 3800)] := by rfl
    rw [he]
    exact List.mem_cons_self _ _)

theorem pvInsert_lookupVal (acc : List ((String × String) × Int)) (k : String × String) (v : Int)
    (t : String × String) :
    lookupVal (pvInsert acc k v) t = lookupVal acc t + (if t = k then v else 0) := by
  induction acc with
  | nil =>
    simp only [pvInsert, lookupVal_cons, lookupVal_nil]
    by_cases ht : t = k
    · rw [if_pos ht.symm, if_pos ht, zero_add]
    · rw [if_neg (fun e => ht e.symm), if_neg ht, add_zero]
  | cons p rest ih =>
    simp only [pvInsert]
    by_cases h1 : k = p.1
    · rw [if_pos h1]
      by_cases ht : t = p.1
      · rw [lookupVal_cons, lookupVal_cons, if_pos ht.symm, if_pos ht.symm,
          if_pos (ht.trans h1.symm)]
      · have htk : ¬t = k := fun e => ht (e.trans h1)
        rw [lookupVal_cons, lookupVal_cons, if_neg (fun e => ht e.symm),
          if_neg (fun e => ht e.symm), if_neg htk, add_zero]
    · rw [if_neg h1]
      by_cases ht : t = p.1
      · have htk : ¬t = k := fun e => h1 (e.symm.trans ht)
        rw [lookupVal_cons, lookupVal_cons, if_pos ht.symm, if_pos ht.symm,
          if_neg htk, add_zero]
      · rw [lookupVal_cons, lookupVal_cons, if_neg (fun e => ht e.symm),
          if_neg (fun e => ht e.symm)]
        exact ih

theorem cellTotal_append_single (df : List DRow) (r : DRow) (m c : String) :
    cellTotal (df ++ [r]) m c =
      cellTotal df m c + (if (m, c) = (r.year_month, r.category) then r.amount else 0) := by
  by_cases h : (m, c) = (r.year_month, r.category)
  · rw [Prod.mk.injEq] at h
    obtain ⟨h1, h2⟩ := h
    subst h1; subst h2
    simp [cellTotal, List.filter_append, List.filter_cons]
  · rw [if_neg h, add_zero]
    have hb : (r.year_month == m && r.category == c) = false := by
      cases hx : (r.year_month == m && r.category == c) with
      | false => rfl
      | true =>
        rw [Bool.and_eq_true, beq_iff_eq, beq_iff_eq] at hx
        exact absurd (by rw [hx.1, hx.2]) h
    simp [cellTotal, List.filter_append, List.filter_cons, hb]

theorem pivotGroups_lookupVal (df : List DRow) (m c : String) :
    lookupVal (pivotGroups df) (m, c) = cellTotal df m c := by
  induction df using List.reverseRecOn with
  | nil => simp [pivotGroups, lookupVal_nil, cellTotal]
  | append_singleton l r ih =>
    have hstep : pivotGroups (l ++ [r]) =
        pvInsert (pivotGroups l) (r.year_month, r.category) r.amount := by
      simp [pivotGroups, List.foldl_append]
    rw [hstep, pvInsert_lookupVal, ih, cellTotal_append_single]

theorem strInsert_mem (l : List String) (s t : String) :
    t ∈ strInsert l s ↔ t = s ∨ t ∈ l := by
  induction l with
  | nil => simp [strInsert]
  | cons s' rest ih =>
    simp only [strInsert]
    by_cases h1 : s = s'
    · rw [if_pos h1]
      simp only [List.mem_cons]
      constructor
      · rintro (h | h)
        · exact Or.inr (Or.inl h)
        · exact Or.inr (Or.inr h)
      · rintro (h | h | h)
        · exact Or.inl (h.trans h1)
        · exact Or.inl h
        · exact Or.inr h
    · rw [if_neg h1]
      by_cases h2 : strLt s s' = true
      · rw [if_pos h2]
        simp only [List.mem_cons]
      · rw [if_neg h2]
        simp only [List.mem_cons, ih]
        tauto

theorem strInsert_sorted (l : List String) (s : String) (h : l.Pairwise (· < ·)) :
    (strInsert l s).Pairwise (· < ·) := by
  induction l with
  | nil => simp [strInsert]
  | cons s' rest ih =>
    rw [List.pairwise_cons] at h
    obtain ⟨hp, hrest⟩ := h
    simp only [strInsert]
    by_cases h1 : s = s'
    · rw [if_pos h1]
      exact List.pairwise_cons.mpr ⟨hp, hrest⟩
    · rw [if_neg h1]
      by_cases h2 : strLt s s' = true
      · have h2' : s < s' := (strLt_iff s s').mp h2
        rw [if_pos h2]
        refine List.pairwise_cons.mpr ⟨?_, List.pairwise_cons.mpr ⟨hp, hrest⟩⟩
        intro b hb
        rcases List.mem_cons.mp hb with rfl | hb'
        · exact h2'
        · exact lt_trans h2' (hp b hb')
      · have h3 : s' < s := by
          rcases lt_trichotomy s s' with hlt | heq | hgt
          · exact absurd ((strLt_iff s s').mpr hlt) h2
          · exact absurd heq h1
          · exact hgt
        rw [if_neg h2]
        refine List.pairwise_cons.mpr ⟨?_, ih hrest⟩
        intro b hb
        rcases (strInsert_mem rest s b).mp hb with rfl | hb'
        · exact h3
        · exact hp b hb'

theorem pivotMonths_spec (df : List DRow) :
    (pivotMonths df).Pairwise (· < ·) ∧
    (∀ t, t ∈ pivotMonths df ↔ t ∈ df.map (fun r => r.year_month)) := by
  induction df using List.reverseRecOn with
  | nil => exact ⟨List.Pairwise.nil, by intro t; simp [pivotMonths]⟩
  | append_singleton l r ih =>
    obtain ⟨hs, hm⟩ := ih
    have hstep : pivotMonths (l ++ [r]) = strInsert (pivotMonths l) r.year_month := by
      simp [pivotMonths, List.foldl_append]
    refine ⟨hstep ▸ strInsert_sorted _ _ hs, ?_⟩
    intro t
    rw [hstep, strInsert_mem, hm t]
    simp [or_comm]

theorem pivotCats_mem (df : List DRow) (t : String) :
    t ∈ pivotCats df ↔ t ∈ df.map (fun r => r.category) := by
  induction df using List.reverseRecOn with
  | nil => simp [pivotCats]
  | append_singleton l r ih =>
    have hstep : pivotCats (l ++ [r]) = strInsert (pivotCats l) r.category := by
      simp [pivotCats, List.foldl_append]
    rw [hstep, strInsert_mem, ih]
    simp [or_comm]

/-- C10: the pivot table's rows are indexed by the distinct months in
ascending order; every (year_month, category) combination present in the
data has its cell in the table; every cell holds the sum of the amounts
of its combination, which is the fill value 0 exactly when the
combination has no transactions. -/
theorem pivot_table_correct (df : List DRow) :
    ((pivot_table df).map Prod.fst).Pairwise (fun a b => a < b) ∧
    (∀ m, m ∈ (pivot_table df).map Prod.fst ↔ m ∈ df.map (fun r => r.year_month)) ∧
    (∀ m c, m ∈ df.map (fun r => r.year_month) → c ∈ df.map (fun r => r.category) →
      ∃ row, (m, row) ∈ pivot_table df ∧ (c, pivotCell df m c) ∈ row) ∧
    (∀ m c, pivotCell df m c = cellTotal df m c) ∧
    (∀ m c, df.filter (fun r => r.year_month == m && r.category == c) = [] →
      pivotCell df m c = 0) := by
  obtain ⟨hs, hm⟩ := pivotMonths_spec df
  have hfst : (pivot_table df).map Prod.fst = pivotMonths df := by
    simp [pivot_table, List.map_map, Function.comp_def]
  have hcell : ∀ m c, pivotCell df m c = cellTotal df m c := by
    intro m c
    exact pivotGroups_lookupVal df m c
  refine ⟨?_, ?_, ?_, hcell, ?_⟩
  · rw [hfst]; exact hs
  · intro m; rw [hfst]; exact hm m
  · intro m c hm' hc'
    refine ⟨(pivotCats df).map (fun c => (c, pivotCell df m c)), ?_, ?_⟩
    · exact List.mem_map_of_mem _ ((hm m).mpr hm')
    · exact List.mem_map_of_mem _ ((pivotCats_mem df c).mpr hc')
  · intro m c hf
    rw [hcell m c, cellTotal, hf]
    rfl

/-- Witness for pivot_table_correct on the concrete dataset: the
(2025-10, 교통) combination has no transactions, yet its cell exists in
the table (and holds the fill value 0). -/
theorem pivot_table_correct_witness :
    ∃ row, ("2025-10", row) ∈ pivot_table demoDf ∧
      ("교통", pivotCell demoDf "2025-10" "교통") ∈ row :=
  (pivot_table_correct demoDf).2.2.1 "2025-10" "교통" (by
    simp [demoDf]) (by simp [demoDf])

end ExpenseDashboard
